import Mathlib

/-!
Verification development for the Assembly4 solver plugin.

The Python sources model an assembly-constraint pipeline:
* `AddConstraints/AddConstraintSystem.py` builds an undirected multigraph
  over component identifiers (one edge per constraint record), serializes
  it to a dict-of-dicts representation and answers three extractor
  queries over the deserialized graph;
* `AddConstraints/AddLockConstraint.py` maintains a lock-constraint
  record: per-axis enable flags and values, a sparse `Parameters`
  mapping and a derived `reduced_DoF` weight;
* `features.py` resolves component poses, composing a parent placement
  with a linked datum placement for composite `parent.datum` identifiers
  and normalizing Euler angles to `[0, 2*pi)` radians;
* `Commands/SolveSystem.py` runs the solve cycle and commits results
  only when the external solver reports success.

Every definition below is a shallow embedding of the corresponding
Python code.  Graph nodes are `Option String` because the builder uses
Python `None` endpoints for constraint types it does not recognize.
Numeric scalars are kept generic over a `LinearOrderedField` so the
definitions stay executable; theorems instantiate them at `ℝ`.
-/

/-- Graph nodes: a component identifier string, the sentinel
`some "LOCK_NODE"`, or Python `None` (`none`). -/
abbrev GNode := Option String

/-- One edge of the undirected multigraph, as networkx stores it: the
two endpoints in insertion orientation, the integer edge key that
distinguishes parallel edges, and the attribute payload. -/
structure MEdge (α : Type) where
  u : GNode
  v : GNode
  key : Nat
  data : α
  deriving DecidableEq

/-- An undirected multigraph: node list (insertion order, no
duplicates) and edge list (insertion order). -/
structure MGraph (α : Type) where
  nodes : List GNode
  edges : List (MEdge α)
  deriving DecidableEq

/-- The unordered endpoint pair of an edge. -/
def MEdge.pair (e : MEdge α) : Sym2 GNode := s(e.u, e.v)

/-- The (endpoints, key) identity of an edge: what networkx uses to
decide whether `add_edge` with an explicit key merges. -/
def MEdge.pk (e : MEdge α) : Sym2 GNode × Nat := (e.pair, e.key)

/-- The (endpoints, key, attributes) content of an edge, with the
endpoints taken unordered. -/
def MEdge.triple (e : MEdge α) : Sym2 GNode × Nat × α := (e.pair, e.key, e.data)

/-- The empty multigraph (`nx.MultiGraph()`). -/
def MGraph.empty : MGraph α := ⟨[], []⟩

/-- Add a node unless it is already present (networkx `add_node`). -/
def addGNode (ns : List GNode) (n : GNode) : List GNode :=
  if n ∈ ns then ns else ns ++ [n]

/-- The key networkx assigns to a new parallel edge: `len(keydict)`,
i.e. the number of edges already present between the two endpoints. -/
def autoKey (g : MGraph α) (u v : GNode) : Nat :=
  (g.edges.filter (fun e => e.pair = s(u, v))).length

/-- `MultiGraph.add_edge(u, v, **attrs)` with an automatically chosen
key. -/
def MGraph.addEdge (g : MGraph α) (u v : GNode) (a : α) : MGraph α :=
  { nodes := addGNode (addGNode g.nodes u) v,
    edges := g.edges ++ [⟨u, v, autoKey g u v, a⟩] }

/-- A live constraint record as `updateSystem` reads it from the
document: `f.Name`, `f.Object`, `f.Type`, `f.reduced_DoF`,
`f.Parameters`.  The parameter payload is carried opaquely. -/
structure CRecord (β : Type) where
  name : String
  object : String
  ctype : String
  reduced_DoF : Int
  parameters : β
  deriving DecidableEq

/-- The attribute map `updateSystem` stores on every edge. -/
structure EdgeAttrs (β : Type) where
  weight : Int
  label : String
  parameters : β
  constraintType : String
  deriving DecidableEq

/-- The edge attributes built from a record (`weight=f.reduced_DoF`,
`label=f.Name`, `parameters=f.Parameters`, `constraintType=f.Type`). -/
def CRecord.attrs (r : CRecord β) : EdgeAttrs β :=
  ⟨r.reduced_DoF, r.name, r.parameters, r.ctype⟩

/-- The endpoints `updateSystem` chooses for a record: `u = v = None`
initially, replaced by `(f.Object, "LOCK_NODE")` only for the
`Lock_Constraint` type. -/
def CRecord.endpoints (r : CRecord β) : GNode × GNode :=
  if r.ctype = "Lock_Constraint" then (some r.object, some "LOCK_NODE")
  else (none, none)

/-- The loop body of `ConstraintSystem.updateSystem`: skip the system
object itself, otherwise add one edge with the record's attributes. -/
def updateStep (g : MGraph (EdgeAttrs β)) (r : CRecord β) : MGraph (EdgeAttrs β) :=
  if r.name = "Constraint_System" then g
  else g.addEdge r.endpoints.1 r.endpoints.2 r.attrs

/-- The graph `ConstraintSystem.updateSystem` builds from the document's
constraint group (before serializing it into `System_Data`). -/
def updateSystem (rs : List (CRecord β)) : MGraph (EdgeAttrs β) :=
  rs.foldl updateStep MGraph.empty

/-- Projection of an edge list to (oriented endpoints, attributes). -/
def edgeView (g : MGraph α) : List ((GNode × GNode) × α) :=
  g.edges.map (fun e => ((e.u, e.v), e.data))

theorem updateStep_edgeView (g : MGraph (EdgeAttrs β)) (r : CRecord β) :
    (updateStep g r).edges =
      if r.name = "Constraint_System" then g.edges
      else g.edges ++ [⟨r.endpoints.1, r.endpoints.2,
        (g.edges.filter (fun e => e.pair = s(r.endpoints.1, r.endpoints.2))).length,
        r.attrs⟩] := by
  unfold updateStep MGraph.addEdge
  split <;> rfl

theorem updateSystem_go (rs : List (CRecord β)) (g : MGraph (EdgeAttrs β)) :
    edgeView (rs.foldl updateStep g) =
      edgeView g ++
        (rs.filter (fun r => r.name ≠ "Constraint_System")).map
          (fun r => (r.endpoints, r.attrs)) := by
  induction rs generalizing g with
  | nil => simp [edgeView]
  | cons r rs ih =>
    rw [List.foldl_cons, ih]
    by_cases h : r.name = "Constraint_System"
    · simp [updateStep, h, edgeView]
    · simp only [updateStep, h, if_neg, MGraph.addEdge, edgeView, List.filter_cons,
        List.map_cons, decide_not]
      simp [h, List.map_append]

/-- **C6**: `updateSystem` adds exactly one edge per constraint record
other than the system object itself, each edge labeled with the
record's identity, weight, parameters and type; a Lock-type record gets
endpoints `(target, LOCK_NODE)`; records sharing endpoints yield
distinct parallel edges (the edge list keeps one entry per record, in
order, never merging). -/
theorem claim_C6_one_edge_per_record (β : Type) (rs : List (CRecord β)) :
    edgeView (updateSystem rs) =
      (rs.filter (fun r => r.name ≠ "Constraint_System")).map
        (fun r => (r.endpoints, r.attrs)) ∧
    ∀ r : CRecord β, r.ctype = "Lock_Constraint" →
      r.endpoints = (some r.object, some "LOCK_NODE") := by
  constructor
  · have h := updateSystem_go rs MGraph.empty
    simpa [edgeView, MGraph.empty] using h
  · intro r h
    simp [CRecord.endpoints, h]

/-- A sample Lock record used by concrete witnesses. -/
def recA : CRecord ℕ :=
  { name := "Lock_Constraint", object := "Body1", ctype := "Lock_Constraint",
    reduced_DoF := 2, parameters := 37 }

/-- A second Lock record with the same endpoints as `recA`. -/
def recB : CRecord ℕ :=
  { name := "Lock_Constraint001", object := "Body1", ctype := "Lock_Constraint",
    reduced_DoF := 1, parameters := 5 }

/-- Witness for C6: two Lock records on the same component produce two
parallel edges with the records' attribute maps, in order. -/
theorem claim_C6_witness :
    edgeView (updateSystem [recA, recB]) =
      [((some "Body1", some "LOCK_NODE"), recA.attrs),
       ((some "Body1", some "LOCK_NODE"), recB.attrs)] ∧
    recA.endpoints = (some "Body1", some "LOCK_NODE") :=
  ⟨by
    rw [(claim_C6_one_edge_per_record ℕ [recA, recB]).1]
    rfl,
   (claim_C6_one_edge_per_record ℕ [recA, recB]).2 recA rfl⟩

/-- **C10**: a record whose type tag is not `"Lock_Constraint"` (and is
not the system object) is neither skipped nor rejected: the builder
still adds an edge for it, with both endpoints the Python null `None`,
so the graph gains a `None` node carrying the record's attributes. -/
theorem claim_C10_nonlock_gets_none_edge (β : Type) (r : CRecord β)
    (h1 : r.name ≠ "Constraint_System") (h2 : r.ctype ≠ "Lock_Constraint") :
    (updateSystem [r]).edges = [⟨none, none, 0, r.attrs⟩] ∧
    (updateSystem [r]).nodes = [none] := by
  simp [updateSystem, updateStep, h1, CRecord.endpoints, h2,
    MGraph.addEdge, MGraph.empty, addGNode, autoKey]

/-- A record with an unrecognized constraint type, for the C10 witness. -/
def recOther : CRecord ℕ :=
  { name := "Fix_Constraint", object := "Body2", ctype := "Fix_Constraint",
    reduced_DoF := 6, parameters := 11 }

/-- Witness for C10: the unrecognized record produces a single
`None`–`None` edge and a `None` node. -/
theorem claim_C10_witness :
    (updateSystem [recOther]).edges = [⟨none, none, 0, recOther.attrs⟩] ∧
    (updateSystem [recOther]).nodes = [none] :=
  claim_C10_nonlock_gets_none_edge ℕ recOther (by decide) (by decide)

/-- The neighbor list of `u` in networkx's adjacency structure: the
other endpoint of every edge incident to `u`, without duplicates. -/
def nbrsOf (g : MGraph α) (u : GNode) : List GNode :=
  (g.edges.filterMap (fun e =>
    if e.u = u then some e.v else if e.v = u then some e.u else none)).dedup

/-- The key dictionary `adj[u][v]` of a networkx multigraph: edge key to
attribute payload, for every edge between `u` and `v`. -/
def keydictOf (g : MGraph α) (u v : GNode) : List (Nat × α) :=
  g.edges.filterMap (fun e =>
    if (e.u = u ∧ e.v = v) ∨ (e.u = v ∧ e.v = u) then some (e.key, e.data)
    else none)

/-- The persisted dict-of-dicts-of-dicts shape stored in `System_Data`:
node, then neighbor, then edge key, then attribute payload. -/
abbrev Persisted (α : Type) := List (GNode × List (GNode × List (Nat × α)))

/-- Modelled from the spec: the graph serializer (`nx.to_dict_of_dicts`)
is the external networkx library, whose code is not part of this
repository; the spec describes the persisted form as "a mapping from
node → mapping from neighbor node → mapping from edge-index →
edge-attribute mapping".  Every node is mapped to its neighbor
dictionary, each neighbor to its key dictionary; an edge `u–v` appears
under both `u` and `v`, a self loop once. -/
def toDictOfDicts (g : MGraph α) : Persisted α :=
  g.nodes.map (fun u => (u, (nbrsOf g u).map (fun v => (v, keydictOf g u v))))

/-- `MultiGraph.add_edge(u, v, key=k, **attrs)` with an explicit key:
if an edge with the same unordered endpoints and the same key exists,
its attribute payload is overwritten; otherwise a new edge (and any
missing endpoint node) is inserted. -/
def addEdgeWithKey (g : MGraph α) (u v : GNode) (k : Nat) (a : α) : MGraph α :=
  if ∃ e ∈ g.edges, e.pair = s(u, v) ∧ e.key = k then
    { g with edges := g.edges.map (fun e =>
        if e.pair = s(u, v) ∧ e.key = k then { e with data := a } else e) }
  else
    { nodes := addGNode (addGNode g.nodes u) v,
      edges := g.edges ++ [⟨u, v, k, a⟩] }

/-- The flattened `(u, v, key, data)` stream traversed by
`nx.from_dict_of_dicts` with `multigraph_input=True`. -/
def flatItems (d : Persisted α) : List (GNode × GNode × Nat × α) :=
  d.flatMap (fun p => p.2.flatMap (fun q => q.2.map (fun ka => (p.1, q.1, ka.1, ka.2))))

/-- Modelled from the spec: the multigraph deserializer
(`nx.from_dict_of_dicts(d, multigraph_input=True,
create_using=nx.MultiGraph)`) is the external networkx library, whose
code is not part of this repository.  It adds all outer keys as nodes,
then adds every `(u, v, key, data)` item with an explicit key, so the
two appearances of an undirected edge merge on their shared key. -/
def fromDictOfDicts (d : Persisted α) : MGraph α :=
  (flatItems d).foldl (fun g x => addEdgeWithKey g x.1 x.2.1 x.2.2.1 x.2.2.2)
    ⟨(d.map Prod.fst).dedup, []⟩

/-- Unordered endpoints of a traversal item. -/
def itemPair (x : GNode × GNode × Nat × α) : Sym2 GNode := s(x.1, x.2.1)

/-- (endpoints, key) identity of a traversal item. -/
def itemPk (x : GNode × GNode × Nat × α) : Sym2 GNode × Nat := (itemPair x, x.2.2.1)

/-- (endpoints, key, data) content of a traversal item. -/
def itemTriple (x : GNode × GNode × Nat × α) : Sym2 GNode × Nat × α :=
  (itemPair x, x.2.2.1, x.2.2.2)

/-- Well-formedness maintained by `add_edge` with automatic keys: node
list has no duplicates, edge endpoints are registered nodes, the
(endpoints, key) identities are pairwise distinct, and every key is
below the number of parallel edges on its endpoint pair. -/
structure MGraph.WF (g : MGraph α) : Prop where
  nodesNodup : g.nodes.Nodup
  endsMem : ∀ e ∈ g.edges, e.u ∈ g.nodes ∧ e.v ∈ g.nodes
  pkDistinct : g.edges.Pairwise (fun e e' => e.pk ≠ e'.pk)
  keyBound : ∀ e ∈ g.edges,
    e.key < (g.edges.filter (fun x => x.pair = e.pair)).length

theorem mem_addGNode_of_mem {ns : List GNode} {m : GNode} (n : GNode)
    (h : m ∈ ns) : m ∈ addGNode ns n := by
  unfold addGNode
  split
  · exact h
  · exact List.mem_append_left _ h

theorem mem_addGNode_self (ns : List GNode) (n : GNode) : n ∈ addGNode ns n := by
  unfold addGNode
  split
  · assumption
  · simp

theorem addGNode_nodup {ns : List GNode} (n : GNode) (h : ns.Nodup) :
    (addGNode ns n).Nodup := by
  unfold addGNode
  split
  · exact h
  · rename_i hn
    rw [List.nodup_append]
    refine ⟨h, List.nodup_singleton n, ?_⟩
    intro a ha hb
    rw [List.mem_singleton] at hb
    exact hn (hb ▸ ha)

theorem addGNode_eq_of_mem {ns : List GNode} {n : GNode} (h : n ∈ ns) :
    addGNode ns n = ns := by
  unfold addGNode
  exact if_pos h

theorem filter_pair_congr (l : List (MEdge α)) {p q : Sym2 GNode} (h : p = q) :
    (l.filter (fun x => x.pair = p)).length = (l.filter (fun x => x.pair = q)).length := by
  rw [h]

theorem WF.addEdge {g : MGraph α} (hg : g.WF) (u v : GNode) (a : α) :
    (g.addEdge u v a).WF := by
  have hpair : (MEdge.mk u v (autoKey g u v) a).pair = s(u, v) := rfl
  constructor
  · exact addGNode_nodup v (addGNode_nodup u hg.nodesNodup)
  · intro e he
    rw [MGraph.addEdge, List.mem_append, List.mem_singleton] at he
    rcases he with he | he
    · obtain ⟨h1, h2⟩ := hg.endsMem e he
      exact ⟨mem_addGNode_of_mem v (mem_addGNode_of_mem u h1),
             mem_addGNode_of_mem v (mem_addGNode_of_mem u h2)⟩
    · subst he
      exact ⟨mem_addGNode_of_mem v (mem_addGNode_self _ u), mem_addGNode_self _ v⟩
  · show List.Pairwise _ (g.edges ++ [⟨u, v, autoKey g u v, a⟩])
    rw [List.pairwise_append]
    refine ⟨hg.pkDistinct, List.pairwise_singleton _ _, ?_⟩
    intro e he e' he'
    rw [List.mem_singleton] at he'
    subst he'
    intro hpk
    rw [MEdge.pk, MEdge.pk, Prod.mk.injEq] at hpk
    obtain ⟨hp, hkk⟩ := hpk
    have hb := hg.keyBound e he
    rw [hpair] at hp
    have hlen : (g.edges.filter (fun x => x.pair = e.pair)).length = autoKey g u v :=
      filter_pair_congr g.edges hp
    have hkk2 : e.key = autoKey g u v := hkk
    omega
  · intro e he
    rw [MGraph.addEdge, List.mem_append, List.mem_singleton] at he
    show e.key < ((g.edges ++ [MEdge.mk u v (autoKey g u v) a]).filter
      (fun (x : MEdge α) => x.pair = e.pair)).length
    rw [List.filter_append, List.length_append]
    rcases he with he | he
    · have hb := hg.keyBound e he
      omega
    · subst he
      have hkey : (MEdge.mk u v (autoKey g u v) a).key = autoKey g u v := rfl
      have h1 : (g.edges.filter
          (fun (x : MEdge α) => x.pair = (MEdge.mk u v (autoKey g u v) a).pair)).length =
          autoKey g u v :=
        filter_pair_congr g.edges hpair
      have h2 : (([MEdge.mk u v (autoKey g u v) a]).filter
          (fun (x : MEdge α) => x.pair = (MEdge.mk u v (autoKey g u v) a).pair)).length = 1 := by
        simp
      omega

/-- One step of `add_edges_from` inside `from_dict_of_dicts`. -/
def addItem (g : MGraph α) (x : GNode × GNode × Nat × α) : MGraph α :=
  addEdgeWithKey g x.1 x.2.1 x.2.2.1 x.2.2.2

theorem fromDictOfDicts_eq (d : Persisted α) :
    fromDictOfDicts d = (flatItems d).foldl addItem ⟨(d.map Prod.fst).dedup, []⟩ := rfl

theorem addItem_eq_self {g : MGraph α} {u v : GNode} {k : Nat} {a : α}
    (hex : ∃ e ∈ g.edges, e.pair = s(u, v) ∧ e.key = k)
    (hdat : ∀ e ∈ g.edges, e.pair = s(u, v) → e.key = k → e.data = a) :
    addEdgeWithKey g u v k a = g := by
  rw [addEdgeWithKey, if_pos hex]
  have hmap : g.edges.map (fun e =>
      if e.pair = s(u, v) ∧ e.key = k then { e with data := a } else e) = g.edges := by
    conv_rhs => rw [← List.map_id g.edges]
    apply List.map_congr_left
    intro e he
    by_cases hc : e.pair = s(u, v) ∧ e.key = k
    · rw [if_pos hc]
      have hd : e.data = a := hdat e he hc.1 hc.2
      cases e
      simp only at hd
      simp [hd]
    · rw [if_neg hc]
      rfl
  rw [hmap]

theorem addItem_append {g : MGraph α} {u v : GNode} {k : Nat} {a : α}
    (hex : ¬ ∃ e ∈ g.edges, e.pair = s(u, v) ∧ e.key = k)
    (hu : u ∈ g.nodes) (hv : v ∈ g.nodes) :
    addEdgeWithKey g u v k a =
      { nodes := g.nodes, edges := g.edges ++ [⟨u, v, k, a⟩] } := by
  rw [addEdgeWithKey, if_neg hex, addGNode_eq_of_mem hu, addGNode_eq_of_mem hv]

theorem pk_eq_iff (e : MEdge α) (u : GNode) (v : GNode) (k : Nat) :
    e.pk = (s(u, v), k) ↔ e.pair = s(u, v) ∧ e.key = k := by
  simp [MEdge.pk, Prod.ext_iff]

/-- Main fold lemma: running `add_edges_from` over an item stream whose
duplicated (endpoints, key) identities carry equal data, against a graph
that agrees with the stream on shared identities, changes no nodes,
keeps identities pairwise distinct, and realizes exactly the union of
the existing and the streamed (endpoints, key, data) triples. -/
theorem foldl_addItem_spec (L : List (GNode × GNode × Nat × α)) :
    ∀ g : MGraph α,
    g.edges.Pairwise (fun e e' => e.pk ≠ e'.pk) →
    (∀ x ∈ L, ∀ e ∈ g.edges, e.pk = itemPk x → e.data = x.2.2.2) →
    (∀ x ∈ L, ∀ y ∈ L, itemPk x = itemPk y → x.2.2.2 = y.2.2.2) →
    (∀ x ∈ L, x.1 ∈ g.nodes ∧ x.2.1 ∈ g.nodes) →
    ((L.foldl addItem g).nodes = g.nodes ∧
     (L.foldl addItem g).edges.Pairwise (fun e e' => e.pk ≠ e'.pk) ∧
     ∀ t, t ∈ (L.foldl addItem g).edges.map MEdge.triple ↔
       (t ∈ g.edges.map MEdge.triple ∨ t ∈ L.map itemTriple)) := by
  induction L with
  | nil =>
    intro g h1 _ _ _
    exact ⟨rfl, h1, by simp⟩
  | cons x L ih =>
    intro g hpw hga hLL hnds
    obtain ⟨u, v, k, a⟩ := x
    rw [List.foldl_cons]
    have hxpk : itemPk ((u, v, k, a) : GNode × GNode × Nat × α) = (s(u, v), k) := rfl
    by_cases hex : ∃ e ∈ g.edges, e.pair = s(u, v) ∧ e.key = k
    · have hstep : addItem g (u, v, k, a) = g := by
        apply addItem_eq_self hex
        intro e he hp hk
        exact hga (u, v, k, a) (List.mem_cons_self _ _) e he
          (by rw [hxpk, pk_eq_iff]; exact ⟨hp, hk⟩)
      rw [hstep]
      obtain ⟨n1, p1, m1⟩ := ih g hpw
        (fun y hy => hga y (List.mem_cons_of_mem _ hy))
        (fun y hy z hz => hLL y (List.mem_cons_of_mem _ hy) z (List.mem_cons_of_mem _ hz))
        (fun y hy => hnds y (List.mem_cons_of_mem _ hy))
      refine ⟨n1, p1, fun t => ?_⟩
      rw [m1 t]
      obtain ⟨e₀, he₀, hp₀, hk₀⟩ := hex
      have he₀d : e₀.data = a :=
        hga (u, v, k, a) (List.mem_cons_self _ _) e₀ he₀
          (by rw [hxpk, pk_eq_iff]; exact ⟨hp₀, hk₀⟩)
      have htr : MEdge.triple e₀ = itemTriple (u, v, k, a) := by
        simp [MEdge.triple, itemTriple, itemPair, hp₀, hk₀, he₀d]
      simp only [List.map_cons, List.mem_cons]
      constructor
      · rintro (h | h)
        · exact Or.inl h
        · exact Or.inr (Or.inr h)
      · rintro (h | rfl | h)
        · exact Or.inl h
        · exact Or.inl (htr ▸ List.mem_map_of_mem MEdge.triple he₀)
        · exact Or.inr h
    · have hu := (hnds (u, v, k, a) (List.mem_cons_self _ _)).1
      have hv := (hnds (u, v, k, a) (List.mem_cons_self _ _)).2
      have hstep : addItem g (u, v, k, a) =
          { nodes := g.nodes, edges := g.edges ++ [⟨u, v, k, a⟩] } :=
        addItem_append hex hu hv
      rw [hstep]
      have hpw' : (g.edges ++ [(⟨u, v, k, a⟩ : MEdge α)]).Pairwise
          (fun e e' => e.pk ≠ e'.pk) := by
        rw [List.pairwise_append]
        refine ⟨hpw, List.pairwise_singleton _ _, ?_⟩
        intro e he e' he'
        rw [List.mem_singleton] at he'
        subst he'
        intro hipk
        exact hex ⟨e, he, (pk_eq_iff e u v k).mp hipk⟩
      obtain ⟨n1, p1, m1⟩ := ih ⟨g.nodes, g.edges ++ [⟨u, v, k, a⟩]⟩ hpw'
        (by
          intro y hy e he hpk
          rcases List.mem_append.mp he with he | he
          · exact hga y (List.mem_cons_of_mem _ hy) e he hpk
          · rw [List.mem_singleton] at he
            subst he
            exact hLL (u, v, k, a) (List.mem_cons_self _ _) y (List.mem_cons_of_mem _ hy) hpk)
        (fun y hy z hz => hLL y (List.mem_cons_of_mem _ hy) z (List.mem_cons_of_mem _ hz))
        (fun y hy => hnds y (List.mem_cons_of_mem _ hy))
      refine ⟨n1, p1, fun t => ?_⟩
      rw [m1 t]
      have htr : MEdge.triple (⟨u, v, k, a⟩ : MEdge α) = itemTriple (u, v, k, a) := rfl
      simp only [List.map_append, List.map_cons, List.map_nil, List.mem_append,
        List.mem_singleton, List.mem_cons, htr]
      tauto

theorem mem_keydictOf {g : MGraph α} {u v : GNode} {ka : Nat × α} :
    ka ∈ keydictOf g u v ↔
      ∃ e ∈ g.edges, ((e.u = u ∧ e.v = v) ∨ (e.u = v ∧ e.v = u)) ∧
        ka = (e.key, e.data) := by
  rw [keydictOf, List.mem_filterMap]
  constructor
  · rintro ⟨e, he, hf⟩
    by_cases hc : (e.u = u ∧ e.v = v) ∨ (e.u = v ∧ e.v = u)
    · rw [if_pos hc] at hf
      exact ⟨e, he, hc, (Option.some_injective _ hf).symm⟩
    · rw [if_neg hc] at hf
      cases hf
  · rintro ⟨e, he, hc, rfl⟩
    exact ⟨e, he, if_pos hc⟩

theorem mem_nbrsOf {g : MGraph α} {u w : GNode} :
    w ∈ nbrsOf g u ↔
      ∃ e ∈ g.edges, (e.u = u ∧ w = e.v) ∨ (e.u ≠ u ∧ e.v = u ∧ w = e.u) := by
  rw [nbrsOf, List.mem_dedup, List.mem_filterMap]
  constructor
  · rintro ⟨e, he, hf⟩
    by_cases h1 : e.u = u
    · rw [if_pos h1] at hf
      exact ⟨e, he, Or.inl ⟨h1, (Option.some_injective _ hf).symm⟩⟩
    · rw [if_neg h1] at hf
      by_cases h2 : e.v = u
      · rw [if_pos h2] at hf
        exact ⟨e, he, Or.inr ⟨h1, h2, (Option.some_injective _ hf).symm⟩⟩
      · rw [if_neg h2] at hf
        cases hf
  · rintro ⟨e, he, hc⟩
    rcases hc with ⟨h1, rfl⟩ | ⟨h1, h2, rfl⟩
    · exact ⟨e, he, if_pos h1⟩
    · refine ⟨e, he, ?_⟩
      rw [if_neg h1, if_pos h2]

theorem mem_flatItems_toDict {g : MGraph α} (hwf : g.WF)
    (x : GNode × GNode × Nat × α) :
    x ∈ flatItems (toDictOfDicts g) ↔
      ∃ e ∈ g.edges,
        x = (e.u, e.v, e.key, e.data) ∨ x = (e.v, e.u, e.key, e.data) := by
  rw [flatItems, toDictOfDicts]
  simp only [List.mem_flatMap, List.mem_map]
  constructor
  · rintro ⟨p, ⟨un, hun, rfl⟩, hx⟩
    simp only [List.mem_flatMap, List.mem_map] at hx
    obtain ⟨q, ⟨vn, _hvn, rfl⟩, ka, hka, rfl⟩ := hx
    rw [mem_keydictOf] at hka
    obtain ⟨e, he, hc, rfl⟩ := hka
    rcases hc with ⟨h1, h2⟩ | ⟨h1, h2⟩
    · exact ⟨e, he, Or.inl (by rw [← h1, ← h2])⟩
    · exact ⟨e, he, Or.inr (by rw [← h1, ← h2])⟩
  · rintro ⟨e, he, hor⟩
    rcases hor with rfl | rfl
    · refine ⟨(e.u, (nbrsOf g e.u).map (fun v => (v, keydictOf g e.u v))),
        ⟨e.u, (hwf.endsMem e he).1, rfl⟩, ?_⟩
      simp only [List.mem_flatMap, List.mem_map]
      refine ⟨(e.v, keydictOf g e.u e.v), ⟨e.v, ?_, rfl⟩, ?_⟩
      · rw [mem_nbrsOf]
        exact ⟨e, he, Or.inl ⟨rfl, rfl⟩⟩
      · refine ⟨(e.key, e.data), ?_, rfl⟩
        rw [mem_keydictOf]
        exact ⟨e, he, Or.inl ⟨rfl, rfl⟩, rfl⟩
    · refine ⟨(e.v, (nbrsOf g e.v).map (fun v => (v, keydictOf g e.v v))),
        ⟨e.v, (hwf.endsMem e he).2, rfl⟩, ?_⟩
      simp only [List.mem_flatMap, List.mem_map]
      refine ⟨(e.u, keydictOf g e.v e.u), ⟨e.u, ?_, rfl⟩, ?_⟩
      · rw [mem_nbrsOf]
        by_cases h : e.u = e.v
        · exact ⟨e, he, Or.inl ⟨h, h⟩⟩
        · exact ⟨e, he, Or.inr ⟨h, rfl, rfl⟩⟩
      · refine ⟨(e.key, e.data), ?_, rfl⟩
        rw [mem_keydictOf]
        exact ⟨e, he, Or.inr ⟨rfl, rfl⟩, rfl⟩

theorem pairwise_pk_eq {l : List (MEdge α)}
    (h : l.Pairwise (fun e e' => e.pk ≠ e'.pk)) :
    ∀ e ∈ l, ∀ e' ∈ l, e.pk = e'.pk → e = e' := by
  induction l with
  | nil => intro e he; cases he
  | cons a l ih =>
    rw [List.pairwise_cons] at h
    intro e he e' he' hpk
    rcases List.mem_cons.mp he with he1 | he1
    · rcases List.mem_cons.mp he' with he2 | he2
      · rw [he1, he2]
      · subst he1
        exact absurd hpk (h.1 e' he2)
    · rcases List.mem_cons.mp he' with he2 | he2
      · subst he2
        exact absurd hpk.symm (h.1 e he1)
      · exact ih h.2 e he1 e' he2 hpk

theorem itemPk_of_edge (e : MEdge α) :
    itemPk ((e.u, e.v, e.key, e.data) : GNode × GNode × Nat × α) = e.pk ∧
    itemPk ((e.v, e.u, e.key, e.data) : GNode × GNode × Nat × α) = e.pk := by
  constructor
  · rfl
  · show (s(e.v, e.u), e.key) = (s(e.u, e.v), e.key)
    rw [Sym2.eq_swap]

theorem itemTriple_of_edge (e : MEdge α) :
    itemTriple ((e.u, e.v, e.key, e.data) : GNode × GNode × Nat × α) = e.triple ∧
    itemTriple ((e.v, e.u, e.key, e.data) : GNode × GNode × Nat × α) = e.triple := by
  constructor
  · rfl
  · show (s(e.v, e.u), e.key, e.data) = (s(e.u, e.v), e.key, e.data)
    rw [Sym2.eq_swap]

theorem nodup_triples {l : List (MEdge α)}
    (h : l.Pairwise (fun e e' => e.pk ≠ e'.pk)) : (l.map MEdge.triple).Nodup :=
  h.map _ (fun a b hab hteq => hab (by
    rw [MEdge.pk, MEdge.pk]
    rw [MEdge.triple, MEdge.triple, Prod.ext_iff] at hteq
    obtain ⟨h1, h2⟩ := hteq
    rw [Prod.ext_iff] at h2
    exact Prod.ext h1 h2.1))

/-- Serialize–deserialize round trip for any well-formed multigraph:
the node list is preserved exactly, and the multiset of
(unordered endpoints, key, attributes) triples is preserved. -/
theorem roundTrip_spec {g : MGraph α} (hwf : g.WF) :
    (fromDictOfDicts (toDictOfDicts g)).nodes = g.nodes ∧
    (((fromDictOfDicts (toDictOfDicts g)).edges.map MEdge.triple : List (Sym2 GNode × Nat × α)) :
        Multiset (Sym2 GNode × Nat × α)) =
      ((g.edges.map MEdge.triple : List (Sym2 GNode × Nat × α)) :
        Multiset (Sym2 GNode × Nat × α)) := by
  have houter : (toDictOfDicts g).map Prod.fst = g.nodes := by
    rw [toDictOfDicts, List.map_map]
    exact List.map_id g.nodes
  have hdedup : ((toDictOfDicts g).map Prod.fst).dedup = g.nodes := by
    rw [houter]
    exact List.dedup_eq_self.mpr hwf.nodesNodup
  have hmem := fun x => mem_flatItems_toDict hwf x
  have hspec := foldl_addItem_spec (flatItems (toDictOfDicts g))
    ⟨((toDictOfDicts g).map Prod.fst).dedup, []⟩
    List.Pairwise.nil
    (by intro x _ e he; cases he)
    (by
      intro x hx y hy hpk
      obtain ⟨e, he, hor⟩ := (hmem x).mp hx
      obtain ⟨e', he', hor'⟩ := (hmem y).mp hy
      have hex : itemPk x = e.pk := by
        rcases hor with rfl | rfl
        · exact (itemPk_of_edge e).1
        · exact (itemPk_of_edge e).2
      have hey : itemPk y = e'.pk := by
        rcases hor' with rfl | rfl
        · exact (itemPk_of_edge e').1
        · exact (itemPk_of_edge e').2
      have hee : e = e' :=
        pairwise_pk_eq hwf.pkDistinct e he e' he' (by rw [← hex, ← hey, hpk])
      subst hee
      have hx3 : x.2.2.2 = e.data := by
        rcases hor with rfl | rfl <;> rfl
      have hy3 : y.2.2.2 = e.data := by
        rcases hor' with rfl | rfl <;> rfl
      rw [hx3, hy3])
    (by
      intro x hx
      obtain ⟨e, he, hor⟩ := (hmem x).mp hx
      obtain ⟨h1, h2⟩ := hwf.endsMem e he
      rw [hdedup]
      rcases hor with rfl | rfl
      · exact ⟨h1, h2⟩
      · exact ⟨h2, h1⟩)
  obtain ⟨hn, hp, hm⟩ := hspec
  rw [fromDictOfDicts_eq]
  constructor
  · rw [hn, hdedup]
  · have hnd1 : (((flatItems (toDictOfDicts g)).foldl addItem
        ⟨((toDictOfDicts g).map Prod.fst).dedup, []⟩).edges.map MEdge.triple).Nodup :=
      nodup_triples hp
    have hnd2 : (g.edges.map MEdge.triple).Nodup := nodup_triples hwf.pkDistinct
    refine (Multiset.Nodup.ext (Multiset.coe_nodup.mpr hnd1)
      (Multiset.coe_nodup.mpr hnd2)).mpr ?_
    · intro t
      rw [Multiset.mem_coe, Multiset.mem_coe, hm t]
      constructor
      · rintro (h | h)
        · simp at h
        · rw [List.mem_map] at h
          obtain ⟨x, hx, rfl⟩ := h
          obtain ⟨e, he, hor⟩ := (hmem x).mp hx
          have : itemTriple x = e.triple := by
            rcases hor with rfl | rfl
            · exact (itemTriple_of_edge e).1
            · exact (itemTriple_of_edge e).2
          rw [this]
          exact List.mem_map_of_mem _ he
      · intro h
        rw [List.mem_map] at h
        obtain ⟨e, he, rfl⟩ := h
        refine Or.inr ?_
        rw [List.mem_map]
        refine ⟨(e.u, e.v, e.key, e.data), ?_, (itemTriple_of_edge e).1⟩
        exact (hmem _).mpr ⟨e, he, Or.inl rfl⟩

theorem WF_empty : (MGraph.empty : MGraph α).WF := by
  refine ⟨List.nodup_nil, ?_, List.Pairwise.nil, ?_⟩
  · intro e he
    cases he
  · intro e he
    cases he

theorem WF_updateSystem (rs : List (CRecord β)) : (updateSystem rs).WF := by
  rw [updateSystem]
  have h : ∀ g : MGraph (EdgeAttrs β), g.WF → (rs.foldl updateStep g).WF := by
    induction rs with
    | nil => intro g hg; exact hg
    | cons r rs ih =>
      intro g hg
      rw [List.foldl_cons]
      apply ih
      rw [updateStep]
      split
      · exact hg
      · exact WF.addEdge hg _ _ _
  exact h _ WF_empty

/-- **C1**: for every graph built by `updateSystem`, deserializing the
persisted dict-of-dicts form with multigraph reconstruction yields a
graph with the same node set and the same multiset of
(endpoints, attribute-map) edges — the round trip
`fromPersisted(toPersisted(g))` preserves the graph including all edge
attributes. -/
theorem claim_C1_round_trip (β : Type) (rs : List (CRecord β)) :
    (fromDictOfDicts (toDictOfDicts (updateSystem rs))).nodes =
      (updateSystem rs).nodes ∧
    (((fromDictOfDicts (toDictOfDicts (updateSystem rs))).edges.map
          (fun e => (e.pair, e.data)) : List (Sym2 GNode × EdgeAttrs β)) :
        Multiset (Sym2 GNode × EdgeAttrs β)) =
      (((updateSystem rs).edges.map (fun e => (e.pair, e.data)) :
          List (Sym2 GNode × EdgeAttrs β)) :
        Multiset (Sym2 GNode × EdgeAttrs β)) := by
  obtain ⟨hn, ht⟩ := roundTrip_spec (WF_updateSystem rs)
  refine ⟨hn, ?_⟩
  rw [Multiset.coe_eq_coe] at ht ⊢
  have hperm := ht.map (fun t : Sym2 GNode × Nat × EdgeAttrs β => (t.1, t.2.2))
  rw [List.map_map, List.map_map] at hperm
  exact hperm

/-- Keys of a Python dict modelled as an association list. -/
def dkeys (d : List (String × γ)) : List String := d.map Prod.fst

/-- Python dict assignment `d[k] = v`: overwrite in place when the key
exists, append otherwise. -/
def dinsert (d : List (String × γ)) (k : String) (v : γ) : List (String × γ) :=
  if k ∈ dkeys d then d.map (fun p => if p.1 = k then (k, v) else p)
  else d ++ [(k, v)]

/-- Python dict lookup `d[k]` (keys are unique, first match). -/
def dget (d : List (String × γ)) (k : String) : Option γ :=
  match d with
  | [] => none
  | p :: d => if p.1 = k then some p.2 else dget d k

theorem dkeys_map_update (d : List (String × γ)) (k : String) (v : γ) :
    dkeys (d.map (fun p => if p.1 = k then (k, v) else p)) = dkeys d := by
  rw [dkeys, dkeys, List.map_map]
  apply List.map_congr_left
  intro p _
  by_cases hp : p.1 = k
  · simp [Function.comp, hp]
  · simp [Function.comp, hp]

theorem dkeys_dinsert (d : List (String × γ)) (k : String) (v : γ) :
    dkeys (dinsert d k v) = if k ∈ dkeys d then dkeys d else dkeys d ++ [k] := by
  rw [dinsert]
  split
  · exact dkeys_map_update d k v
  · rw [dkeys, dkeys, List.map_append]
    rfl

theorem dget_map_ne (d : List (String × γ)) (k k' : String) (v : γ) (h : k ≠ k') :
    dget (d.map (fun p => if p.1 = k then (k, v) else p)) k' = dget d k' := by
  induction d with
  | nil => rfl
  | cons p d ih =>
    rw [List.map_cons, dget, dget]
    by_cases hp : p.1 = k
    · rw [if_pos hp]
      show (if k = k' then some v else _) = _
      rw [if_neg h, if_neg (by rw [hp]; exact h), ih]
    · rw [if_neg hp]
      show (if p.1 = k' then some p.2 else _) = _
      split
      · rfl
      · exact ih

theorem dget_map_eq (d : List (String × γ)) (k : String) (v : γ) (h : k ∈ dkeys d) :
    dget (d.map (fun p => if p.1 = k then (k, v) else p)) k = some v := by
  induction d with
  | nil => cases h
  | cons p d ih =>
    rw [List.map_cons, dget]
    by_cases hp : p.1 = k
    · rw [if_pos hp]
      show (if k = k then some v else _) = some v
      rw [if_pos rfl]
    · rw [if_neg hp]
      show (if p.1 = k then some p.2 else _) = some v
      rw [if_neg hp]
      apply ih
      rcases List.mem_cons.mp h with h1 | h1
      · exact absurd h1.symm hp
      · exact h1

theorem dget_append_single (d : List (String × γ)) (k k' : String) (v : γ)
    (hmem : k ∉ dkeys d) :
    dget (d ++ [(k, v)]) k' = if k = k' then some v else dget d k' := by
  induction d with
  | nil =>
    show (if k = k' then some v else none) = if k = k' then some v else none
    rfl
  | cons p d ih =>
    have hk : p.1 ≠ k := by
      intro h
      apply hmem
      rw [dkeys, List.map_cons, ← h]
      exact List.mem_cons_self _ _
    have hmem2 : k ∉ dkeys d := by
      intro h
      apply hmem
      rw [dkeys, List.map_cons]
      exact List.mem_cons_of_mem _ h
    rw [List.cons_append, dget, dget, ih hmem2]
    by_cases hp : p.1 = k'
    · have hne : k ≠ k' := fun hkk => hk (hp.trans hkk.symm)
      rw [if_pos hp, if_neg hne, if_pos hp]
    · rw [if_neg hp, if_neg hp]

theorem dget_dinsert (d : List (String × γ)) (k k' : String) (v : γ) :
    dget (dinsert d k v) k' = if k = k' then some v else dget d k' := by
  rw [dinsert]
  split
  · rename_i hmem
    by_cases hk : k = k'
    · subst hk
      rw [if_pos rfl]
      exact dget_map_eq d k v hmem
    · rw [if_neg hk]
      exact dget_map_ne d k k' v hk
  · rename_i hmem
    exact dget_append_single d k k' v hmem

/-- The endpoint `getConstraintNames` picks for a Lock edge: the second
endpoint when the first one is the sentinel, the first one otherwise. -/
def lockTarget (e : MEdge (EdgeAttrs β)) : GNode :=
  if e.u = some "LOCK_NODE" then e.v else e.u

/-- The shared loop body of `getConstraintNames` and
`getConstraintParameters`: for a Lock-type edge, write `val e` into the
result dictionary under the edge's label; skip other edges. -/
def lockStep (val : MEdge (EdgeAttrs β) → γ) (d : List (String × γ))
    (e : MEdge (EdgeAttrs β)) : List (String × γ) :=
  if e.data.constraintType = "Lock_Constraint" then
    dinsert d e.data.label (val e)
  else d

/-- `ConstraintSystem.getConstraintNames` over the deserialized graph:
`label → objName` for every Lock-type edge (the Python value is the
singleton dict `{"Object": objName}`, modelled by the name itself). -/
def getConstraintNamesG (g : MGraph (EdgeAttrs β)) : List (String × GNode) :=
  g.edges.foldl (lockStep lockTarget) []

/-- `ConstraintSystem.getConstraintParameters` over the deserialized
graph: `label → parameters` for every Lock-type edge. -/
def getConstraintParametersG (g : MGraph (EdgeAttrs β)) : List (String × β) :=
  g.edges.foldl (lockStep (fun e => e.data.parameters)) []

theorem dkeys_lockFold (es : List (MEdge (EdgeAttrs β)))
    (val1 : MEdge (EdgeAttrs β) → γ) (val2 : MEdge (EdgeAttrs β) → δ) :
    ∀ d1 d2, dkeys d1 = dkeys d2 →
      dkeys (es.foldl (lockStep val1) d1) = dkeys (es.foldl (lockStep val2) d2) := by
  induction es with
  | nil => intro d1 d2 h; exact h
  | cons e es ih =>
    intro d1 d2 h
    rw [List.foldl_cons, List.foldl_cons]
    apply ih
    rw [lockStep, lockStep]
    split
    · rw [dkeys_dinsert, dkeys_dinsert, h]
    · exact h

theorem dget_lockFold_of_absent (val : MEdge (EdgeAttrs β) → γ) (k : String)
    (es : List (MEdge (EdgeAttrs β)))
    (h : ∀ e ∈ es, e.data.constraintType = "Lock_Constraint" → e.data.label ≠ k) :
    ∀ d, dget (es.foldl (lockStep val) d) k = dget d k := by
  induction es with
  | nil => intro d; rfl
  | cons e es ih =>
    intro d
    rw [List.foldl_cons]
    rw [ih (fun x hx => h x (List.mem_cons_of_mem _ hx))]
    rw [lockStep]
    split
    · rename_i hl
      rw [dget_dinsert, if_neg (h e (List.mem_cons_self _ _) hl)]
    · rfl

theorem dget_lockFold_mem (val : MEdge (EdgeAttrs β) → γ)
    (es : List (MEdge (EdgeAttrs β))) (e : MEdge (EdgeAttrs β)) :
    e ∈ es →
    e.data.constraintType = "Lock_Constraint" →
    (es.filter (fun x => x.data.constraintType = "Lock_Constraint")).Pairwise
      (fun x y => x.data.label ≠ y.data.label) →
    ∀ d, dget (es.foldl (lockStep val) d) e.data.label = some (val e) := by
  induction es with
  | nil => intro he; cases he
  | cons a es ih =>
    intro he hl hdist d
    rw [List.foldl_cons]
    rcases List.mem_cons.mp he with rfl | he2
    · have hfa : (e :: es).filter (fun x => x.data.constraintType = "Lock_Constraint") =
          e :: es.filter (fun x => x.data.constraintType = "Lock_Constraint") := by
        rw [List.filter_cons, if_pos (by simp [hl])]
      rw [hfa, List.pairwise_cons] at hdist
      have habsent : ∀ x ∈ es, x.data.constraintType = "Lock_Constraint" →
          x.data.label ≠ e.data.label := by
        intro x hx hxl hlab
        exact hdist.1 x (List.mem_filter.mpr ⟨hx, by simp [hxl]⟩) hlab.symm
      rw [dget_lockFold_of_absent val e.data.label es
        (fun x hx hxl => habsent x hx hxl)]
      rw [lockStep, if_pos hl, dget_dinsert, if_pos rfl]
    · apply ih he2 hl
      rw [List.filter_cons] at hdist
      rcases Decidable.em (a.data.constraintType = "Lock_Constraint") with hal | hal
      · rw [if_pos (by simp [hal])] at hdist
        exact (List.pairwise_cons.mp hdist).2
      · rwa [if_neg (by simp [hal])] at hdist

/-- **C9**: over the deserialized graph, `getConstraintNames` maps each
Lock edge's label to the endpoint picked as "not the LOCK_NODE
sentinel", `getConstraintParameters` maps the same label to the edge's
parameters, and the two dictionaries always have identical key lists,
so a caller can join them on label.  The per-edge lookups assume the
Lock edges carry pairwise distinct labels (the spec requires labels to
be unique); when exactly one endpoint is the sentinel the picked
endpoint is the other one. -/
theorem claim_C9_names_parameters_join (β : Type) (g : MGraph (EdgeAttrs β)) :
    dkeys (getConstraintNamesG g) = dkeys (getConstraintParametersG g) ∧
    (∀ e ∈ g.edges, e.data.constraintType = "Lock_Constraint" →
      (g.edges.filter (fun x => x.data.constraintType = "Lock_Constraint")).Pairwise
        (fun x y => x.data.label ≠ y.data.label) →
      dget (getConstraintNamesG g) e.data.label = some (lockTarget e) ∧
      dget (getConstraintParametersG g) e.data.label = some e.data.parameters ∧
      (e.u = some "LOCK_NODE" → lockTarget e = e.v) ∧
      (e.u ≠ some "LOCK_NODE" → lockTarget e = e.u)) := by
  constructor
  · exact dkeys_lockFold g.edges lockTarget (fun e => e.data.parameters) [] [] rfl
  · intro e he hl hdist
    refine ⟨dget_lockFold_mem lockTarget g.edges e he hl hdist [],
            dget_lockFold_mem (fun x => x.data.parameters) g.edges e he hl hdist [],
            ?_, ?_⟩
    · intro h
      rw [lockTarget, if_pos h]
    · intro h
      rw [lockTarget, if_neg h]

/-- Python's `str.split(sep)` on character lists: splits on every
occurrence of the separator (`"".split(".") == [""]`). -/
def pySplit (s : List Char) (c : Char) : List (List Char) :=
  match s with
  | [] => [[]]
  | h :: t =>
    if h = c then [] :: pySplit t c
    else
      match pySplit t c with
      | [] => [[h]]
      | g :: gs => (h :: g) :: gs

/-- The unpacking `parent, datum = objName.split(".")` used by
`getRotationVal` and `getBaseVal`: succeeds only when the split yields
exactly two parts (exactly one dot); any other shape raises
`ValueError` in Python, modelled as `none`. -/
def splitComposite (s : String) : Option (String × String) :=
  match pySplit s.toList '.' with
  | [p, d] => some (⟨p⟩, ⟨d⟩)
  | _ => none

theorem pySplit_no_sep (s : List Char) (c : Char) (h : c ∉ s) : pySplit s c = [s] := by
  induction s with
  | nil => rfl
  | cons a t ih =>
    rw [pySplit]
    have ha : ¬a = c := fun hac => h (hac ▸ List.mem_cons_self a t)
    rw [if_neg ha, ih (fun hc => h (List.mem_cons_of_mem _ hc))]

theorem pySplit_append (p d : List Char) (c : Char) (hp : c ∉ p) :
    pySplit (p ++ c :: d) c = p :: pySplit d c := by
  induction p with
  | nil =>
    rw [List.nil_append, pySplit, if_pos rfl]
  | cons a t ih =>
    have ha : ¬a = c := fun hac => hp (hac ▸ List.mem_cons_self a t)
    rw [List.cons_append, pySplit, if_neg ha, ih (fun hc => hp (List.mem_cons_of_mem _ hc))]

theorem pySplit_ne_nil (s : List Char) (c : Char) : pySplit s c ≠ [] := by
  cases s with
  | nil => simp [pySplit]
  | cons h t =>
    rw [pySplit]
    by_cases hc : h = c
    · rw [if_pos hc]
      exact List.cons_ne_nil _ _
    · rw [if_neg hc]
      cases hpt : pySplit t c with
      | nil => exact List.cons_ne_nil _ _
      | cons g gs => exact List.cons_ne_nil _ _

theorem pySplit_length (s : List Char) (c : Char) :
    (pySplit s c).length = s.count c + 1 := by
  induction s with
  | nil => simp [pySplit]
  | cons a t ih =>
    by_cases hac : a = c
    · subst hac
      rw [pySplit, if_pos rfl, List.length_cons, ih, List.count_cons_self]
    · obtain ⟨g, gs, hg⟩ : ∃ g gs, pySplit t c = g :: gs := by
        cases hpt : pySplit t c with
        | nil => exact absurd hpt (pySplit_ne_nil t c)
        | cons g gs => exact ⟨g, gs, rfl⟩
      rw [pySplit, if_neg hac, hg, List.length_cons,
        List.count_cons_of_ne (fun h => hac h.symm)]
      rw [hg, List.length_cons] at ih
      exact ih

theorem splitComposite_one_dot (p d : String) (hp : '.' ∉ p.toList)
    (hd : '.' ∉ d.toList) : splitComposite (p ++ "." ++ d) = some (p, d) := by
  have h1 : (p ++ "." ++ d).toList = p.toList ++ '.' :: d.toList := by
    obtain ⟨pl⟩ := p
    obtain ⟨dl⟩ := d
    show (pl ++ ['.']) ++ dl = pl ++ '.' :: dl
    simp
  rw [splitComposite, h1, pySplit_append _ _ _ hp, pySplit_no_sep _ _ hd]
  rfl

theorem splitComposite_not_two (s : String)
    (h : (pySplit s.toList '.').length ≠ 2) : splitComposite s = none := by
  rcases hps : pySplit s.toList '.' with _ | ⟨a, _ | ⟨b, _ | ⟨c, l⟩⟩⟩
  · rw [splitComposite, hps]
  · rw [splitComposite, hps]
  · exact absurd (by rw [hps]; rfl) h
  · rw [splitComposite, hps]

/-- A FreeCAD placement: a rotation (as a 3×3 matrix) and a base
translation vector. -/
structure Placement (α : Type) where
  rot : Matrix (Fin 3) (Fin 3) α
  base : Fin 3 → α

/-- FreeCAD placement multiplication `parentPla * datumPla`: rotations
compose, and the datum base is rotated into the parent frame and
shifted by the parent base. -/
def Placement.comp [CommRing α] (p q : Placement α) : Placement α :=
  ⟨p.rot * q.rot, p.rot.mulVec q.base + p.base⟩

/-- A host document object as the Pose Resolver reads it: its own
placement, and — through `getLinkedObject().Document.getObject(datum)` —
the placements of the datums of its linked target document. -/
structure HostObj (α : Type) where
  placement : Placement α
  linkedDoc : String → Option (Placement α)

/-- `App.ActiveDocument.getObject`: name to object, `none` when the
object does not exist. -/
abbrev HostEnv (α : Type) := String → Option (HostObj α)

/-- The shared composite-resolution core of `getRotationVal` and
`getBaseVal`: `absDatumPla = parentPla * datumPla`.  A missing parent or
datum raises in Python, modelled as `none`. -/
def absPlacement [CommRing α] (env : HostEnv α) (parent datum : String) :
    Option (Placement α) :=
  match env parent with
  | none => none
  | some obj =>
    match obj.linkedDoc datum with
    | none => none
    | some dpla => some (obj.placement.comp dpla)

/-- `features.getBaseVal`: composite identifiers are split and resolved
through the composed placement, plain identifiers read the object's own
base; the axis is one of x, y, z (coordinates 0, 1, 2). -/
def getBaseVal [CommRing α] (env : HostEnv α) (objName : String) (axis : Fin 3) :
    Option α :=
  if '.' ∈ objName.toList then
    match splitComposite objName with
    | none => none
    | some (parent, datum) =>
      (absPlacement env parent datum).map (fun pla => pla.base axis)
  else
    (env objName).map (fun obj => obj.placement.base axis)

/-- The rotation axis argument of `getRotationVal` ("x", "y" or "z"). -/
inductive RotAxis
  | x
  | y
  | z
  deriving DecidableEq

/-- The tail of `features.getRotationVal`: pick the Euler component for
the axis (`toEuler()` returns angles about z, y, x in that order, in
degrees), convert to radians, and shift negative values by `2*pi`. -/
def normalizeAngle [LinearOrderedField α] (pi : α) (deg : α) : α :=
  let val := deg * pi / 180
  if val < 0 then 2 * pi + val else val

/-- `features.getRotationVal`: obtain the rotation (own placement or
composed placement), decompose it with the host's `toEuler`, then pick
the axis component and normalize.  `euler` is the host's Euler
decomposition, returning (z-angle, y-angle, x-angle) in degrees. -/
def getRotationVal [LinearOrderedField α]
    (euler : Matrix (Fin 3) (Fin 3) α → α × α × α) (pi : α) (env : HostEnv α)
    (objName : String) (axis : RotAxis) : Option α :=
  let rotm :=
    if '.' ∈ objName.toList then
      match splitComposite objName with
      | none => none
      | some (parent, datum) => (absPlacement env parent datum).map Placement.rot
    else (env objName).map (fun obj => obj.placement.rot)
  match rotm with
  | none => none
  | some m =>
    let r := euler m
    let deg := match axis with
      | .x => r.2.2
      | .y => r.2.1
      | .z => r.1
    some (normalizeAngle pi deg)

/-- **C3**: an angle returned by the host's Euler decomposition (which
reports degrees in `[-180, 180]`) is converted to radians and
normalized: the result lies in `[0, 2*pi)`, is congruent to the
converted angle modulo `2*pi`, and a negative converted angle is
shifted by exactly `+2*pi`; and `getRotationVal` resolves the x-axis of
a plain identifier to exactly this normalization of the decomposition's
x-component. -/
theorem claim_C3_angle_normalization (θ : ℝ) (h1 : -180 ≤ θ) (h2 : θ ≤ 180) :
    (0 ≤ normalizeAngle Real.pi θ ∧ normalizeAngle Real.pi θ < 2 * Real.pi) ∧
    (∃ n : ℤ, normalizeAngle Real.pi θ = θ * Real.pi / 180 + n * (2 * Real.pi)) ∧
    (θ * Real.pi / 180 < 0 →
      normalizeAngle Real.pi θ = θ * Real.pi / 180 + 2 * Real.pi) ∧
    (∀ (env : HostEnv ℝ) (euler : Matrix (Fin 3) (Fin 3) ℝ → ℝ × ℝ × ℝ)
      (name : String) (obj : HostObj ℝ), env name = some obj → '.' ∉ name.toList →
      getRotationVal euler Real.pi env name RotAxis.x =
        some (normalizeAngle Real.pi (euler obj.placement.rot).2.2)) := by
  have hpi := Real.pi_pos
  constructor
  · rw [normalizeAngle]
    by_cases hneg : θ * Real.pi / 180 < 0
    · rw [if_pos hneg]
      constructor
      · nlinarith
      · linarith
    · rw [if_neg hneg]
      push_neg at hneg
      constructor
      · exact hneg
      · nlinarith
  refine ⟨?_, ?_, ?_⟩
  · rw [normalizeAngle]
    by_cases hneg : θ * Real.pi / 180 < 0
    · rw [if_pos hneg]
      exact ⟨1, by ring⟩
    · rw [if_neg hneg]
      exact ⟨0, by ring⟩
  · intro hneg
    rw [normalizeAngle, if_pos hneg]
    ring
  · intro env euler name obj hobj hdot
    rw [getRotationVal, if_neg hdot, hobj]
    rfl

/-- A concrete host object for the C3 witness. -/
def objC : HostObj ℝ := ⟨⟨1, ![0, 0, 0]⟩, fun _ => none⟩

/-- A concrete host document for the C3 witness. -/
def envC : HostEnv ℝ := fun n => if n = "Body" then some objC else none

/-- A concrete Euler decomposition for the C3 witness: reports -90
degrees about x. -/
def eulerC : Matrix (Fin 3) (Fin 3) ℝ → ℝ × ℝ × ℝ := fun _ => (0, 0, -90)

/-- Witness for C3 at θ = -90 degrees: the hypotheses hold and the
normalization facts follow, including the resolver conjunct at a
concrete document. -/
theorem claim_C3_witness :
    (0 ≤ normalizeAngle Real.pi (-90) ∧ normalizeAngle Real.pi (-90) < 2 * Real.pi) ∧
    (∃ n : ℤ, normalizeAngle Real.pi (-90) =
      (-90) * Real.pi / 180 + n * (2 * Real.pi)) ∧
    ((-90) * Real.pi / 180 < 0 →
      normalizeAngle Real.pi (-90) = (-90) * Real.pi / 180 + 2 * Real.pi) ∧
    getRotationVal eulerC Real.pi envC "Body" RotAxis.x =
      some (normalizeAngle Real.pi (eulerC objC.placement.rot).2.2) := by
  have h := claim_C3_angle_normalization (-90) (by norm_num) (by norm_num)
  exact ⟨h.1, h.2.1, h.2.2.1, h.2.2.2 envC eulerC "Body" objC rfl (by decide)⟩

/-- **C4**: for a composite identifier `parent.datum` whose parent
exists and whose linked target document contains the datum, the
resolved absolute placement is the composition of the parent placement
with the datum placement (in that order), and every base coordinate
read by `getBaseVal` comes from that composed placement. -/
theorem claim_C4_composite_resolution (α : Type) [CommRing α] (env : HostEnv α)
    (parent datum : String) (obj : HostObj α) (D : Placement α)
    (hp : '.' ∉ parent.toList) (hd : '.' ∉ datum.toList)
    (hobj : env parent = some obj) (hD : obj.linkedDoc datum = some D) :
    absPlacement env parent datum = some (obj.placement.comp D) ∧
    ∀ axis : Fin 3, getBaseVal env (parent ++ "." ++ datum) axis =
      some ((obj.placement.comp D).base axis) := by
  have habs : absPlacement env parent datum = some (obj.placement.comp D) := by
    simp only [absPlacement, hobj, hD]
  refine ⟨habs, fun axis => ?_⟩
  have hmem : '.' ∈ (parent ++ "." ++ datum).toList := by
    obtain ⟨pl⟩ := parent
    obtain ⟨dl⟩ := datum
    show '.' ∈ (pl ++ ['.']) ++ dl
    simp
  rw [getBaseVal, if_pos hmem]
  simp only [splitComposite_one_dot parent datum hp hd, habs]
  rfl

/-- The parent placement of the C4 witness: identity rotation,
translation (10, 0, 0). -/
def plaParent : Placement ℚ := ⟨1, ![10, 0, 0]⟩

/-- The datum placement of the C4 witness: identity rotation,
translation (0, 5, 0). -/
def plaDatum : Placement ℚ := ⟨1, ![0, 5, 0]⟩

/-- The C4 witness host document: one object `Parent` whose linked
document contains one datum `Datum`. -/
def envW : HostEnv ℚ := fun n =>
  if n = "Parent" then
    some ⟨plaParent, fun m => if m = "Datum" then some plaDatum else none⟩
  else none

/-- Witness for C4: the worked example of the spec — parent translated
(10,0,0), datum translated (0,5,0), both unrotated, resolve to
translation (10,5,0). -/
theorem claim_C4_witness :
    getBaseVal envW ("Parent" ++ "." ++ "Datum") 0 = some 10 ∧
    getBaseVal envW ("Parent" ++ "." ++ "Datum") 1 = some 5 ∧
    getBaseVal envW ("Parent" ++ "." ++ "Datum") 2 = some 0 := by
  have h := claim_C4_composite_resolution ℚ envW "Parent" "Datum"
    ⟨plaParent, fun m => if m = "Datum" then some plaDatum else none⟩ plaDatum
    (by decide) (by decide) rfl rfl
  refine ⟨?_, ?_, ?_⟩
  · rw [h.2 0]
    show some ((plaParent.comp plaDatum).base 0) = some 10
    rw [Placement.comp]
    show some ((1 : Matrix (Fin 3) (Fin 3) ℚ).mulVec plaDatum.base 0 + plaParent.base 0) =
      some 10
    rw [Matrix.one_mulVec]
    norm_num [plaParent, plaDatum]
  · rw [h.2 1]
    show some ((plaParent.comp plaDatum).base 1) = some 5
    rw [Placement.comp]
    show some ((1 : Matrix (Fin 3) (Fin 3) ℚ).mulVec plaDatum.base 1 + plaParent.base 1) =
      some 5
    rw [Matrix.one_mulVec]
    norm_num [plaParent, plaDatum]
  · rw [h.2 2]
    show some ((plaParent.comp plaDatum).base 2) = some 0
    rw [Placement.comp]
    show some ((1 : Matrix (Fin 3) (Fin 3) ℚ).mulVec plaDatum.base 2 + plaParent.base 2) =
      some 0
    rw [Matrix.one_mulVec]
    norm_num [plaParent, plaDatum]

/-- Counterexample for C8: the claim says an identifier with more than
one dot still resolves by splitting on the first dot (so `"a.b.c"`
would give parent `"a"` and datum `"b.c"`); the code instead unpacks
`objName.split(".")` into exactly two names, which fails for two dots —
the split yields no parent/datum pair at all. -/
theorem claim_C8_counterexample :
    splitComposite "a.b.c" = none ∧
    splitComposite "a.b.c" ≠ some ("a", "b.c") := by
  refine ⟨by decide, by decide⟩

/-- **C8** (amended): an identifier with exactly one dot splits into
the text before and after the dot; an identifier with two or more dots
does not resolve at all — the tuple unpacking of Python `split` raises
`ValueError`, so `getBaseVal` produces no value instead of using the
text before the first dot. -/
theorem claim_C8_split_behavior (α : Type) [CommRing α] (p d s : String)
    (hp : '.' ∉ p.toList) (hd : '.' ∉ d.toList)
    (hs : 2 ≤ s.toList.count '.') :
    splitComposite (p ++ "." ++ d) = some (p, d) ∧
    splitComposite s = none ∧
    (∀ (env : HostEnv α) (axis : Fin 3), getBaseVal env s axis = none) := by
  have hnone : splitComposite s = none := by
    apply splitComposite_not_two
    rw [pySplit_length]
    omega
  refine ⟨splitComposite_one_dot p d hp hd, hnone, fun env axis => ?_⟩
  have hmem : '.' ∈ s.toList := by
    by_contra hmem
    rw [List.count_eq_zero_of_not_mem hmem] at hs
    omega
  rw [getBaseVal, if_pos hmem, hnone]

/-- Witness for the amended C8 at `"a" ++ "." ++ "b"` and `"a.b.c"`. -/
theorem claim_C8_witness :
    splitComposite ("a" ++ "." ++ "b") = some ("a", "b") ∧
    splitComposite "a.b.c" = none ∧
    getBaseVal (fun _ => (none : Option (HostObj ℚ))) "a.b.c" 0 = none := by
  have h := claim_C8_split_behavior ℚ "a" "b" "a.b.c" (by decide) (by decide) (by decide)
  exact ⟨h.1, h.2.1, h.2.2 (fun _ => none) 0⟩

/-- Concrete deserialized graph for the C9 witness: one Lock edge. -/
def gW : MGraph (EdgeAttrs ℕ) :=
  { nodes := [some "Body1", some "LOCK_NODE"],
    edges := [⟨some "Body1", some "LOCK_NODE", 0,
      ⟨2, "Lock_Constraint", 42, "Lock_Constraint"⟩⟩] }

/-- Witness for C9: on a one-Lock-edge graph the two queries share the
key `"Lock_Constraint"`, the name query returns the non-sentinel
endpoint and the parameter query returns the stored payload. -/
theorem claim_C9_witness :
    dkeys (getConstraintNamesG gW) = dkeys (getConstraintParametersG gW) ∧
    dget (getConstraintNamesG gW) "Lock_Constraint" = some (some "Body1") ∧
    dget (getConstraintParametersG gW) "Lock_Constraint" = some 42 := by
  have h := claim_C9_names_parameters_join ℕ gW
  have h2 := h.2 ⟨some "Body1", some "LOCK_NODE", 0,
      ⟨2, "Lock_Constraint", 42, "Lock_Constraint"⟩⟩
    (List.mem_cons_self _ _) rfl (by decide)
  exact ⟨h.1, h2.1, h2.2.1⟩

/-- Pose record assembled by `getObjects` (x, y, z, phi, theta, psi). -/
structure Pose (α : Type) where
  x : α
  y : α
  z : α
  phi : α
  theta : α
  psi : α
  deriving DecidableEq

/-- Modelled from the spec: plain-graph reconstruction
(`nx.from_dict_of_dicts(d)` without `multigraph_input`) is the external
networkx library; `getObjects` only uses its node set, which is the
outer keys plus every neighbor key. -/
def fromDictNodes (d : Persisted α) : List GNode :=
  (d.map Prod.fst ++ d.flatMap (fun p => p.2.map Prod.fst)).dedup

/-- `ConstraintSystem.getSystemObject`: the system object's persisted
data when it exists, otherwise `none` plus the printed diagnostic. -/
def getSystemObject (sys : Option (Persisted α)) :
    Option (Persisted α) × List String :=
  match sys with
  | some s => (some s, [])
  | none => (none, ["No system object in assembly"])

/-- One `getObjects` loop iteration: resolve all six pose axes of a
node (`x`,`y`,`z` via `getBaseVal`; `phi`,`theta`,`psi` via
`getRotationVal` on axes x, y, z).  A `None` node or a failed
resolution raises in Python, modelled as `none`. -/
def resolveNode [LinearOrderedField α]
    (euler : Matrix (Fin 3) (Fin 3) α → α × α × α) (pi : α) (env : HostEnv α) :
    GNode → Option (String × Pose α)
  | none => none
  | some s =>
    match getBaseVal env s 0, getBaseVal env s 1, getBaseVal env s 2,
          getRotationVal euler pi env s RotAxis.x,
          getRotationVal euler pi env s RotAxis.y,
          getRotationVal euler pi env s RotAxis.z with
    | some bx, some b2, some bz, some rx, some ry, some rz =>
        some (s, ⟨bx, b2, bz, rx, ry, rz⟩)
    | _, _, _, _, _, _ => none

/-- All-or-nothing sequencing of the per-node resolutions (a Python
exception aborts the whole query). -/
def seqOpt : List (Option γ) → Option (List γ)
  | [] => some []
  | x :: l =>
    match x, seqOpt l with
    | some a, some r => some (a :: r)
    | _, _ => none

/-- `ConstraintSystem.getObjects`: nothing plus a diagnostic when the
system object is missing; otherwise the poses of all non-sentinel
nodes of the plain-deserialized graph. -/
def getObjectsQ [LinearOrderedField α]
    (euler : Matrix (Fin 3) (Fin 3) α → α × α × α) (pi : α) (env : HostEnv α)
    (sys : Option (Persisted (EdgeAttrs β))) :
    Option (List (String × Pose α)) × List String :=
  match getSystemObject sys with
  | (none, logs) => (none, logs)
  | (some d, logs) =>
    (seqOpt (((fromDictNodes d).filter (fun n => n ≠ some "LOCK_NODE")).map
      (resolveNode euler pi env)), logs)

/-- `ConstraintSystem.getConstraintNames` including the system-object
lookup. -/
def getConstraintNamesQ (sys : Option (Persisted (EdgeAttrs β))) :
    Option (List (String × GNode)) × List String :=
  match getSystemObject sys with
  | (none, logs) => (none, logs)
  | (some d, logs) => (some (getConstraintNamesG (fromDictOfDicts d)), logs)

/-- `ConstraintSystem.getConstraintParameters` including the
system-object lookup. -/
def getConstraintParametersQ (sys : Option (Persisted (EdgeAttrs β))) :
    Option (List (String × β)) × List String :=
  match getSystemObject sys with
  | (none, logs) => (none, logs)
  | (some d, logs) => (some (getConstraintParametersG (fromDictOfDicts d)), logs)

/-- Counterexample for C7: with the system object present but the
persisted graph empty, all three queries return empty results but emit
no diagnostic at all — contradicting the claim that a diagnostic is
emitted in the empty-graph case as well as in the missing-holder case. -/
theorem claim_C7_counterexample :
    (getObjectsQ (fun _ => ((0 : ℚ), (0 : ℚ), (0 : ℚ))) 0 (fun _ => none)
      (some ([] : Persisted (EdgeAttrs ℕ)))).2 = [] ∧
    (getConstraintNamesQ (some ([] : Persisted (EdgeAttrs ℕ)))).2 = [] ∧
    (getConstraintParametersQ (some ([] : Persisted (EdgeAttrs ℕ)))).2 = [] :=
  ⟨rfl, rfl, rfl⟩

/-- **C7** (amended): when the graph-holder is absent, each of the
three queries returns nothing and emits the diagnostic "No system
object in assembly"; when the graph-holder is present with an empty
persisted graph, each query returns an empty result and emits no
diagnostic; in neither case is an error raised (the queries are
total). -/
theorem claim_C7_missing_or_empty (α β : Type) [LinearOrderedField α]
    (euler : Matrix (Fin 3) (Fin 3) α → α × α × α) (pi : α) (env : HostEnv α) :
    (getObjectsQ euler pi env (none : Option (Persisted (EdgeAttrs β))) =
        (none, ["No system object in assembly"]) ∧
      getConstraintNamesQ (none : Option (Persisted (EdgeAttrs β))) =
        (none, ["No system object in assembly"]) ∧
      getConstraintParametersQ (none : Option (Persisted (EdgeAttrs β))) =
        (none, ["No system object in assembly"])) ∧
    (getObjectsQ euler pi env (some ([] : Persisted (EdgeAttrs β))) =
        (some [], []) ∧
      getConstraintNamesQ (some ([] : Persisted (EdgeAttrs β))) = (some [], []) ∧
      getConstraintParametersQ (some ([] : Persisted (EdgeAttrs β))) =
        (some [], [])) :=
  ⟨⟨rfl, rfl, rfl⟩, ⟨rfl, rfl, rfl⟩⟩

/-- The result applier's per-object write-back: translation written
directly, rotation rebuilt by the host from
`(psi*180/pi, theta*180/pi, phi*180/pi)` degrees (z, y, x order); the
host rotation constructor is abstracted as `rotFromEuler`. -/
def applyPose [LinearOrderedField α]
    (rotFromEuler : α × α × α → Matrix (Fin 3) (Fin 3) α) (pi : α)
    (env : HostEnv α) (objName : String) (p : Pose α) : HostEnv α :=
  fun n =>
    if n = objName then
      (env objName).map (fun obj =>
        { obj with placement :=
            ⟨rotFromEuler (p.psi * 180 / pi, p.theta * 180 / pi, p.phi * 180 / pi),
             ![p.x, p.y, p.z]⟩ })
    else env n

/-- `CS.updateSystem()` as called at the start of the solve command: a
missing system object leaves the state unchanged (and absent);
otherwise the freshly built graph is serialized into `System_Data`. -/
def updSys (sys : Option (Persisted (EdgeAttrs β))) (records : List (CRecord β)) :
    Option (Persisted (EdgeAttrs β)) :=
  match sys with
  | none => none
  | some _ => some (toDictOfDicts (updateSystem records))

/-- The external solver contract
`solve_constraint_system(objects, constraintNames, constraintParams)
→ (new_objects, success)`. -/
def SolverFun (α β : Type) : Type :=
  Option (List (String × Pose α)) → Option (List (String × GNode)) →
    Option (List (String × β)) → List (String × Pose α) × Bool

/-- `SolveSystemCmd.Activated` (Commands/SolveSystem.py): rebuild and
serialize the graph, extract the three solver inputs, call the solver;
on failure print an error and return without touching any placement; on
success write every returned pose back.  Result: the live objects, the
persisted graph, and the console messages. -/
def activated [LinearOrderedField α]
    (euler : Matrix (Fin 3) (Fin 3) α → α × α × α)
    (rotFromEuler : α × α × α → Matrix (Fin 3) (Fin 3) α) (pi : α)
    (env : HostEnv α) (sys : Option (Persisted (EdgeAttrs β)))
    (records : List (CRecord β)) (solver : SolverFun α β) :
    HostEnv α × Option (Persisted (EdgeAttrs β)) × List String :=
  if (solver (getObjectsQ euler pi env (updSys sys records)).1
      (getConstraintNamesQ (updSys sys records)).1
      (getConstraintParametersQ (updSys sys records)).1).2 = false then
    (env, updSys sys records,
      ["Solving the system...", "Couldn't solve the system!"])
  else
    ((solver (getObjectsQ euler pi env (updSys sys records)).1
        (getConstraintNamesQ (updSys sys records)).1
        (getConstraintParametersQ (updSys sys records)).1).1.foldl
      (fun e p => applyPose rotFromEuler pi e p.1 p.2) env,
     updSys sys records,
     ["Solving the system...", "Solved the system successfully!"])

/-- **C5**: in every solve cycle where the solver reports
`success = false`, the command leaves every live placement unchanged —
the host environment is returned exactly as it was — and the error
"Couldn't solve the system!" is reported to the user. -/
theorem claim_C5_failure_commits_nothing (α β : Type) [LinearOrderedField α]
    (euler : Matrix (Fin 3) (Fin 3) α → α × α × α)
    (rotFromEuler : α × α × α → Matrix (Fin 3) (Fin 3) α) (pi : α)
    (env : HostEnv α) (sys : Option (Persisted (EdgeAttrs β)))
    (records : List (CRecord β)) (solver : SolverFun α β)
    (hfail : (solver (getObjectsQ euler pi env (updSys sys records)).1
      (getConstraintNamesQ (updSys sys records)).1
      (getConstraintParametersQ (updSys sys records)).1).2 = false) :
    (activated euler rotFromEuler pi env sys records solver).1 = env ∧
    "Couldn't solve the system!" ∈
      (activated euler rotFromEuler pi env sys records solver).2.2 := by
  unfold activated
  rw [if_pos hfail]
  exact ⟨rfl, by simp⟩

/-- Witness for C5: an always-failing solver on a concrete (empty)
document leaves the environment untouched and reports the error. -/
theorem claim_C5_witness :
    (activated (fun _ => ((0 : ℚ), (0 : ℚ), (0 : ℚ))) (fun _ => 1) 0
      (fun _ => none) none ([] : List (CRecord ℕ))
      (fun _ _ _ => ([], false))).1 = (fun _ => none) ∧
    "Couldn't solve the system!" ∈
      (activated (fun _ => ((0 : ℚ), (0 : ℚ), (0 : ℚ))) (fun _ => 1) 0
        (fun _ => none) none ([] : List (CRecord ℕ))
        (fun _ _ _ => ([], false))).2.2 :=
  claim_C5_failure_commits_nothing ℚ ℕ (fun _ => ((0 : ℚ), (0 : ℚ), (0 : ℚ)))
    (fun _ => 1) 0 (fun _ => none) none [] (fun _ _ _ => ([], false)) rfl

/-- The six pose axes of a lock constraint. -/
inductive Axis
  | x
  | y
  | z
  | phi
  | theta
  | psi
  deriving DecidableEq, Fintype

/-- Whether the axis's property pair is a rotation one (property name
contains "Rotation"), so its value is converted degrees → radians. -/
def Axis.isRotation : Axis → Bool
  | .phi => true
  | .theta => true
  | .psi => true
  | _ => false

/-- The lock-constraint record state: per-axis enable flags (`Base_x`,
..., `Rotation_z`), per-axis numeric values (`Base_x_val`, ...), the
sparse `Parameters` dictionary (keyed by axis name) and the stored
weight `reduced_DoF`. -/
structure LockObj (α : Type) where
  flags : Axis → Bool
  vals : Axis → α
  parameters : Axis → Option α
  reduced_DoF : Nat

/-- `len(obj.Parameters)`: the number of axes present in the sparse
parameter dictionary. -/
def paramCount (p : Axis → Option α) : Nat :=
  ((Finset.univ : Finset Axis).filter (fun a => (p a).isSome)).card

/-- The degrees → radians conversion applied to rotation values at the
editing boundary (`val*pi/180` when "Rotation" is in the property
name). -/
def convertVal [Field α] (pi : α) (a : Axis) (v : α) : α :=
  if a.isRotation then v * pi / 180 else v

/-- `LockConstraint.changeParameterValue` once loading is complete
(both guarded properties exist): flag off pops the axis from
`Parameters`, flag on (re)inserts the converted current value; finally
`reduced_DoF = len(Parameters)` is recomputed. -/
def changeParameterValue [Field α] (pi : α) (o : LockObj α) (a : Axis) :
    LockObj α :=
  if o.flags a = false then
    { o with parameters := Function.update o.parameters a none,
             reduced_DoF := paramCount (Function.update o.parameters a none) }
  else
    { o with
      parameters :=
        Function.update o.parameters a (some (convertVal pi a (o.vals a))),
      reduced_DoF :=
        paramCount
          (Function.update o.parameters a (some (convertVal pi a (o.vals a)))) }

/-- Toggling an axis enable flag: the property assignment triggers
`onChanged`, which calls `changeParameterValue` for that axis. -/
def toggleFlag [Field α] (pi : α) (o : LockObj α) (a : Axis) (b : Bool) :
    LockObj α :=
  changeParameterValue pi { o with flags := Function.update o.flags a b } a

/-- Editing an axis value: the property assignment triggers `onChanged`,
which calls `changeParameterValue` for that axis. -/
def setValue [Field α] (pi : α) (o : LockObj α) (a : Axis) (v : α) : LockObj α :=
  changeParameterValue pi { o with vals := Function.update o.vals a v } a

/-- The dialog's parameter insertion order x, y, z, phi, theta, psi. -/
def axesList : List Axis := [.x, .y, .z, .phi, .theta, .psi]

/-- `LockConstraint.__init__`: store `constraint_params` into
`Parameters` (weight still at its default 0), then for every axis
present set its flag (triggering `changeParameterValue`) and then its
value (triggering it again). -/
def initLock [Field α] (pi : α) (params : Axis → Option α) : LockObj α :=
  axesList.foldl
    (fun o a =>
      match params a with
      | none => o
      | some v => setValue pi (toggleFlag pi o a true) a v)
    { flags := fun _ => false, vals := fun _ => 0, parameters := params,
      reduced_DoF := 0 }

/-- States of a lock record reachable from construction by flag toggles
and value edits. -/
inductive LockReachable {α : Type} [Field α] (pi : α) : LockObj α → Prop
  | init (params : Axis → Option α) : LockReachable pi (initLock pi params)
  | toggle (o : LockObj α) (a : Axis) (b : Bool) :
      LockReachable pi o → LockReachable pi (toggleFlag pi o a b)
  | edit (o : LockObj α) (a : Axis) (v : α) :
      LockReachable pi o → LockReachable pi (setValue pi o a v)

theorem cPV_invariant [Field α] (pi : α) (o : LockObj α) (a : Axis) :
    (changeParameterValue pi o a).reduced_DoF =
      paramCount (changeParameterValue pi o a).parameters := by
  rw [changeParameterValue]
  split <;> rfl

theorem paramCount_le_six (p : Axis → Option α) : paramCount p ≤ 6 :=
  le_trans (Finset.card_filter_le _ _) (by decide)

theorem initLock_invariant [Field α] (pi : α) (params : Axis → Option α) :
    (initLock pi params).reduced_DoF =
      paramCount (initLock pi params).parameters := by
  have key : ∀ (l : List Axis) (o : LockObj α),
      ((l.foldl (fun o a =>
          match params a with
          | none => o
          | some v => setValue pi (toggleFlag pi o a true) a v) o).reduced_DoF =
        paramCount ((l.foldl (fun o a =>
          match params a with
          | none => o
          | some v => setValue pi (toggleFlag pi o a true) a v) o).parameters)) ∨
      ((l.foldl (fun o a =>
          match params a with
          | none => o
          | some v => setValue pi (toggleFlag pi o a true) a v) o) = o ∧
        ∀ a ∈ l, params a = none) := by
    intro l
    induction l with
    | nil => intro o; exact Or.inr ⟨rfl, by simp⟩
    | cons a l ih =>
      intro o
      rw [List.foldl_cons]
      cases hpa : params a with
      | none =>
        simp only [hpa]
        rcases ih o with h | ⟨h1, h2⟩
        · exact Or.inl h
        · refine Or.inr ⟨h1, ?_⟩
          intro b hb
          rcases List.mem_cons.mp hb with rfl | hb2
          · exact hpa
          · exact h2 b hb2
      | some v =>
        simp only [hpa]
        rcases ih (setValue pi (toggleFlag pi o a true) a v) with h | ⟨h1, h2⟩
        · exact Or.inl h
        · rw [h1]
          exact Or.inl (cPV_invariant pi _ a)
  rcases key axesList
    { flags := fun _ => false, vals := fun _ => 0, parameters := params,
      reduced_DoF := 0 } with h | ⟨h1, h2⟩
  · exact h
  · have hall : ∀ a : Axis, params a = none := by
      intro a
      apply h2
      cases a <;> simp [axesList]
    rw [initLock, h1]
    show 0 = paramCount params
    have hzero : paramCount params = 0 := by
      rw [paramCount, Finset.card_eq_zero, Finset.filter_eq_empty_iff]
      intro a _
      simp [hall a]
    rw [hzero]

/-- **C2**: after construction and after every toggle or edit, the
stored weight `reduced_DoF` equals the number of keys in `Parameters`
and is at most 6; toggling a flag off removes that axis's key from
`Parameters`, toggling it on (re)inserts the converted current value,
and editing the value while the flag is enabled (re)inserts the
converted new value. -/
theorem claim_C2_weight_invariant (o : LockObj ℝ)
    (h : LockReachable Real.pi o) :
    (o.reduced_DoF = paramCount o.parameters ∧ o.reduced_DoF ≤ 6) ∧
    (∀ a : Axis, (toggleFlag Real.pi o a false).parameters a = none) ∧
    (∀ a : Axis, (toggleFlag Real.pi o a true).parameters a =
      some (convertVal Real.pi a (o.vals a))) ∧
    (∀ (a : Axis) (v : ℝ), o.flags a = true →
      (setValue Real.pi o a v).parameters a = some (convertVal Real.pi a v)) := by
  have hinv : o.reduced_DoF = paramCount o.parameters := by
    induction h with
    | init params => exact initLock_invariant Real.pi params
    | toggle o a b _ _ => exact cPV_invariant Real.pi _ a
    | edit o a v _ _ => exact cPV_invariant Real.pi _ a
  refine ⟨⟨hinv, ?_⟩, ?_, ?_, ?_⟩
  · rw [hinv]
    exact paramCount_le_six o.parameters
  · intro a
    simp [toggleFlag, changeParameterValue, Function.update_same]
  · intro a
    simp [toggleFlag, changeParameterValue, Function.update_same]
  · intro a v hflag
    simp [setValue, changeParameterValue, hflag, Function.update_same]

/-- Construction parameters for the C2 witness: x pinned to 10, phi
pinned to 0 (the spec's end-to-end scenario, weight 2). -/
def paramsW : Axis → Option ℝ := fun a =>
  match a with
  | .x => some 10
  | .phi => some 0
  | _ => none

/-- Witness for C2 at the freshly constructed record with x and phi
enabled, with the toggle/edit clauses instantiated at axis x and a
concrete new value. -/
theorem claim_C2_witness :
    ((initLock Real.pi paramsW).reduced_DoF =
        paramCount (initLock Real.pi paramsW).parameters ∧
      (initLock Real.pi paramsW).reduced_DoF ≤ 6) ∧
    (toggleFlag Real.pi (initLock Real.pi paramsW) Axis.x false).parameters
        Axis.x = none ∧
    (toggleFlag Real.pi (initLock Real.pi paramsW) Axis.x true).parameters
        Axis.x =
      some (convertVal Real.pi Axis.x ((initLock Real.pi paramsW).vals Axis.x)) ∧
    ((initLock Real.pi paramsW).flags Axis.x = true →
      (setValue Real.pi (initLock Real.pi paramsW) Axis.x 7).parameters Axis.x =
        some (convertVal Real.pi Axis.x 7)) := by
  have h := claim_C2_weight_invariant (initLock Real.pi paramsW)
    (LockReachable.init paramsW)
  exact ⟨h.1, h.2.1 Axis.x, h.2.2.1 Axis.x, h.2.2.2 Axis.x 7⟩
